import Mathlib

/-!
Verification of the Vakya browser extension core (content script and
background translation worker) against its natural-language specification.

The definitions below are a shallow embedding of the JavaScript source:
pure string processing is translated to Lean functions on `String` /
`List Char`, the DOM is modelled as explicit data (`MNode` documents for
the matcher, `Elem` lists plus a `PageState` record for the rewriter and
interaction state), and the background batch pipeline threads the outcome
of each external network call as an explicit oracle argument.
-/

namespace Vakya

/-! ### Character classes

The JS source uses the regex classes `\s` (whitespace), `\p` `L` (Unicode
letters), `\p` `M` (marks) and `\p` `Pd` (dash punctuation).  The predicates
below are executable versions of those classes; the letter/mark/dash classes
cover the principal Unicode ranges (the proofs only rely on letters being
kept by the key filter, not on the exact extent of the classes). -/

/-- JS regex `\s`: space, tab, LF, VT, FF, CR, NBSP, the Unicode space
separators, line/paragraph separators and BOM. -/
def isJsWhitespace (c : Char) : Bool :=
  c = ' ' || c = '\t' || c = '\n' || c = '\r' || c = '\x0b' || c = '\x0c' ||
  c = ' ' || c = ' ' ||
  (0x2000 ≤ c.toNat && c.toNat ≤ 0x200A) ||
  c = ' ' || c = ' ' || c = ' ' || c = ' ' ||
  c = '　' || c = '﻿'

/-- JS regex Unicode letter class: ASCII letters plus the main Latin,
Greek, Cyrillic, Hebrew, Arabic, Devanagari, Hangul and CJK letter ranges. -/
def isJsLetter (c : Char) : Bool :=
  c.isAlpha ||
  (0x00C0 ≤ c.toNat && c.toNat ≤ 0x00D6) ||
  (0x00D8 ≤ c.toNat && c.toNat ≤ 0x00F6) ||
  (0x00F8 ≤ c.toNat && c.toNat ≤ 0x02AF) ||
  (0x0386 ≤ c.toNat && c.toNat ≤ 0x03F5) ||
  (0x0400 ≤ c.toNat && c.toNat ≤ 0x0481) ||
  (0x048A ≤ c.toNat && c.toNat ≤ 0x052F) ||
  (0x05D0 ≤ c.toNat && c.toNat ≤ 0x05EA) ||
  (0x0620 ≤ c.toNat && c.toNat ≤ 0x064A) ||
  (0x0904 ≤ c.toNat && c.toNat ≤ 0x0939) ||
  (0x3041 ≤ c.toNat && c.toNat ≤ 0x30FF) ||
  (0x4E00 ≤ c.toNat && c.toNat ≤ 0x9FFF) ||
  (0xAC00 ≤ c.toNat && c.toNat ≤ 0xD7A3)

/-- JS regex Unicode mark class (combining marks, main ranges). -/
def isJsMark (c : Char) : Bool :=
  (0x0300 ≤ c.toNat && c.toNat ≤ 0x036F) ||
  (0x0483 ≤ c.toNat && c.toNat ≤ 0x0489) ||
  (0x0591 ≤ c.toNat && c.toNat ≤ 0x05BD) ||
  (0x064B ≤ c.toNat && c.toNat ≤ 0x065F) ||
  (0x0900 ≤ c.toNat && c.toNat ≤ 0x0903) ||
  (0x093A ≤ c.toNat && c.toNat ≤ 0x094F) ||
  (0x1AB0 ≤ c.toNat && c.toNat ≤ 0x1AFF) ||
  (0x20D0 ≤ c.toNat && c.toNat ≤ 0x20F0) ||
  (0xFE00 ≤ c.toNat && c.toNat ≤ 0xFE0F) ||
  (0xFE20 ≤ c.toNat && c.toNat ≤ 0xFE2F)

/-- JS regex dash-punctuation class: hyphen-minus and the Unicode dashes. -/
def isJsDash (c : Char) : Bool :=
  c = '-' || c = '֊' || c = '־' || c = '᐀' || c = '᠆' ||
  (0x2010 ≤ c.toNat && c.toNat ≤ 0x2015) ||
  c = '⸗' || c = '⸚' || c = '⸺' || c = '⸻' ||
  c = '〜' || c = '〰' || c = '゠' ||
  c = '︱' || c = '︲' || c = '﹘' || c = '﹣' || c = '－'

/-- Characters kept by the word-key derivation
`fragment.replace` of all characters outside letter, dash-punctuation,
mark and apostrophe (the negated class of the source regex). -/
def keepKeyChar (c : Char) : Bool :=
  isJsLetter c || isJsDash c || isJsMark c || c = '\''

/-! ### Whitespace-preserving split

`text.split` on the capturing regex group of one-or-more whitespace
characters cuts the string into maximal runs that are alternately
non-whitespace and whitespace, keeping the whitespace runs themselves
(plus possibly empty fragments at the ends, which the render loop skips).
We model it as grouping the character list into maximal runs of equal
whitespace-ness; this yields exactly the nonempty fragments of the JS
split, in order. -/

/-- Structural worker for the whitespace-preserving split; `fuel` bounds
the number of runs (each recursive step consumes at least one character,
so with `fuel = l.length` the fuel-exhausted branch is unreachable). -/
def splitRuns : Nat → List Char → List (List Char)
  | _, [] => []
  | 0, l => [l]
  | fuel + 1, c :: rest =>
    (c :: rest.takeWhile (fun d => isJsWhitespace d == isJsWhitespace c)) ::
      splitRuns fuel (rest.dropWhile (fun d => isJsWhitespace d == isJsWhitespace c))

def splitKeepingWhitespace (l : List Char) : List (List Char) :=
  splitRuns l.length l

theorem join_splitRuns (fuel : Nat) (l : List Char) :
    (splitRuns fuel l).flatten = l := by
  induction fuel generalizing l with
  | zero =>
    cases l with
    | nil => rfl
    | cons c rest => simp [splitRuns]
  | succ fuel ih =>
    cases l with
    | nil => rfl
    | cons c rest =>
      rw [splitRuns]
      simp only [List.flatten_cons, List.cons_append]
      rw [ih, List.takeWhile_append_dropWhile]

theorem join_splitKeepingWhitespace (l : List Char) :
    (splitKeepingWhitespace l).flatten = l :=
  join_splitRuns l.length l

/-! ### Tokenization in renderTranslatedBlock

The source clears the element, splits the translated text with the
whitespace-capturing regex, then for each fragment: skips it if empty,
wraps it in an interactive `span` (visible text = the verbatim fragment,
`dataset.word` = the fragment with all characters outside the
letter/dash/mark/apostrophe classes removed) when it contains at least one
Unicode letter, and otherwise appends it as a plain text node.  A rendered
block is modelled as the ordered list of produced DOM fragments. -/

/-- One DOM fragment appended by `renderTranslatedBlock`: either an
interactive word `span` (with its visible text and derived lookup key) or
a plain text node. -/
inductive Frag where
  | word (text : String) (key : String)
  | plain (text : String)
deriving DecidableEq

/-- The visible text content of a fragment. -/
def fragText : Frag → String
  | .word t _ => t
  | .plain t => t

/-- The result of `fragment.replace` removing every character outside the
letter/dash/mark/apostrophe classes — the derived lookup key. -/
def stripKey (s : String) : String :=
  String.mk (s.toList.filter keepKeyChar)

/-- The loop body of `renderTranslatedBlock` for a single fragment:
`none` models `continue` on the empty fragment. -/
def renderFrag (piece : List Char) : Option Frag :=
  if String.mk piece = "" then none
  else if piece.any isJsLetter then
    some (.word (String.mk piece) (stripKey (String.mk piece)))
  else
    some (.plain (String.mk piece))

/-- Embedding of `renderTranslatedBlock`, as the list of DOM fragments appended to the
(cleared) element, in order. -/
def renderTranslatedBlock (text : String) : List Frag :=
  (splitKeepingWhitespace text.toList).filterMap renderFrag

/-- Concatenation of the visible text of a fragment list — the resulting
`textContent` of the rendered element. -/
def fragsText (l : List Frag) : String :=
  l.foldr (fun f acc => fragText f ++ acc) ""

theorem fragsText_cons (f : Frag) (l : List Frag) :
    fragsText (f :: l) = fragText f ++ fragsText l := rfl

theorem string_mk_append (a b : List Char) :
    String.mk a ++ String.mk b = String.mk (a ++ b) := rfl

theorem string_mk_eq_empty {p : List Char} (h : String.mk p = "") : p = [] := by
  cases p with
  | nil => rfl
  | cons c cs => exact absurd (congrArg String.data h) (by simp)

/-- Inversion: a produced word fragment records the verbatim piece and its
stripped key, and the piece contains a letter. -/
theorem renderFrag_word_inv {piece : List Char} {f k : String}
    (h : renderFrag piece = some (.word f k)) :
    f = String.mk piece ∧ k = stripKey (String.mk piece) ∧
      piece.any isJsLetter = true := by
  unfold renderFrag at h
  split_ifs at h with h1 h2
  · simp only [Option.some.injEq, Frag.word.injEq] at h
    exact ⟨h.1.symm, h.2.symm, h2⟩
  · simp at h

/-- Inversion: a produced plain fragment is the verbatim piece and the
piece contains no letter. -/
theorem renderFrag_plain_inv {piece : List Char} {t : String}
    (h : renderFrag piece = some (.plain t)) :
    t = String.mk piece ∧ piece.any isJsLetter = false := by
  unfold renderFrag at h
  split_ifs at h with h1 h2
  · simp at h
  · simp only [Option.some.injEq, Frag.plain.injEq] at h
    exact ⟨h.symm, by simpa using h2⟩

theorem fragsText_filterMap (pieces : List (List Char)) :
    fragsText (pieces.filterMap renderFrag) = String.mk pieces.flatten := by
  induction pieces with
  | nil => rfl
  | cons p ps ih =>
    rw [List.filterMap_cons, List.flatten_cons]
    rcases hr : renderFrag p with _ | f
    · have hp : p = [] := by
        unfold renderFrag at hr
        split_ifs at hr with h1 h2
        exact string_mk_eq_empty h1
      rw [hp, List.nil_append, ih]
    · have htext : fragText f = String.mk p := by
        cases f with
        | word t k => exact (renderFrag_word_inv hr).1 ▸ rfl
        | plain t => exact (renderFrag_plain_inv hr).1 ▸ rfl
      rw [fragsText_cons, htext, ih, string_mk_append]

theorem string_mk_toList (s : String) : String.mk s.toList = s := rfl

/-- C3: concatenating the fragments produced by `renderTranslatedBlock`,
in output order, reproduces the input string exactly; a fragment becomes
an interactive word unit precisely when it contains a letter (whitespace
runs and letter-free fragments stay plain text). -/
theorem renderTranslatedBlock_roundtrip (text : String)
    (_hletter : text.toList.any isJsLetter = true) :
    fragsText (renderTranslatedBlock text) = text ∧
    ∀ f ∈ renderTranslatedBlock text,
      ((∃ k, f = .word (fragText f) k) ↔ (fragText f).toList.any isJsLetter = true) := by
  refine ⟨?_, ?_⟩
  · rw [renderTranslatedBlock, fragsText_filterMap, join_splitKeepingWhitespace,
      string_mk_toList]
  · intro f hf
    rw [renderTranslatedBlock, List.mem_filterMap] at hf
    obtain ⟨piece, _, hpiece⟩ := hf
    cases f with
    | word t k =>
      obtain ⟨ht, _, hany⟩ := renderFrag_word_inv hpiece
      constructor
      · intro _
        rw [show fragText (Frag.word t k) = t from rfl, ht]
        exact hany
      · intro _
        exact ⟨k, rfl⟩
    | plain t =>
      obtain ⟨ht, hany⟩ := renderFrag_plain_inv hpiece
      constructor
      · rintro ⟨k, hk⟩
        exact absurd hk (by simp)
      · intro h1
        rw [show fragText (Frag.plain t) = t from rfl, ht] at h1
        rw [show (String.mk piece).toList = piece from rfl] at h1
        rw [h1] at hany
        exact absurd hany (by simp)

/-- Witness for C3 at a concrete input. -/
theorem renderTranslatedBlock_roundtrip_witness :
    fragsText (renderTranslatedBlock "Der Hund.") = "Der Hund." :=
  (renderTranslatedBlock_roundtrip "Der Hund." (by decide)).1

/-- C7: every interactive word unit's lookup key is the fragment stripped
of all characters outside the letter/mark/apostrophe/dash classes, while
the visible span text is the verbatim fragment; in particular
`"Wort."` yields key `"Wort"`. -/
theorem wordUnit_key_eq_stripKey (text frag key : String)
    (h : Frag.word frag key ∈ renderTranslatedBlock text) :
    key = stripKey frag ∧
    renderTranslatedBlock "Wort." = [Frag.word "Wort." "Wort"] := by
  refine ⟨?_, by decide⟩
  rw [renderTranslatedBlock, List.mem_filterMap] at h
  obtain ⟨piece, _, hpiece⟩ := h
  obtain ⟨hfrag, hkey, _⟩ := renderFrag_word_inv hpiece
  rw [hkey, hfrag]

/-- Witness for C7. -/
theorem wordUnit_key_eq_stripKey_witness :
    "Wort" = stripKey "Wort." :=
  (wordUnit_key_eq_stripKey "Wort." "Wort." "Wort" (by decide)).1

/-- C10: every interactive word unit carries a nonempty lookup key — the
fragment is wrapped only when it contains a letter, and the key filter
keeps every letter. -/
theorem wordUnit_key_nonempty (text frag key : String)
    (h : Frag.word frag key ∈ renderTranslatedBlock text) :
    key ≠ "" := by
  rw [renderTranslatedBlock, List.mem_filterMap] at h
  obtain ⟨piece, _, hpiece⟩ := h
  obtain ⟨_, hkey, hany⟩ := renderFrag_word_inv hpiece
  rw [hkey]
  rw [List.any_eq_true] at hany
  obtain ⟨c, hc, hcl⟩ := hany
  have hkeep : keepKeyChar c = true := by
    rw [keepKeyChar, hcl]
    rfl
  intro hcontra
  have hmem : c ∈ piece.filter keepKeyChar := List.mem_filter.mpr ⟨hc, hkeep⟩
  have hnil : piece.filter keepKeyChar = [] := by
    have := congrArg String.data hcontra
    simpa [stripKey] using this
  rw [hnil] at hmem
  exact absurd hmem (by simp)

/-- Witness for C10. -/
theorem wordUnit_key_nonempty_witness :
    "Wort" ≠ "" :=
  wordUnit_key_nonempty "Wort." "Wort." "Wort" (by decide)

/-! ### Text normalizer and similarity scorer

`normalizeText` is `text.replace` of every whitespace run by a single
space, then `trim`, then `toLowerCase` (modelled with the ASCII
`Char.toLower`).  `textSimilarity` splits each string on whitespace, keeps
the tokens longer than two characters, forms the two token sets and
returns intersection over union — exactly the source arithmetic
`intersection / (sizeA + sizeB - intersection)` carried out in `ℚ`. -/

/-- JS `trim`: drop whitespace from both ends. -/
def jsTrim (l : List Char) : List Char :=
  ((l.dropWhile isJsWhitespace).reverse.dropWhile isJsWhitespace).reverse

/-- Replacement of each maximal whitespace run by one space, the first `text.replace` of `normalizeText`. -/
def collapseWhitespace (l : List Char) : List Char :=
  ((splitKeepingWhitespace l).map
    (fun r => if r.any isJsWhitespace then [' '] else r)).flatten

/-- Embedding of `normalizeText`: collapse whitespace runs, trim, lowercase. -/
def normalizeText (s : String) : String :=
  String.mk ((jsTrim (collapseWhitespace s.toList)).map Char.toLower)

/-- The result of `a.split` on whitespace runs, keeping only tokens with length > 2
(the empty artifacts of the JS split are removed by the same filter). -/
def tokensOf (s : String) : List String :=
  (((splitKeepingWhitespace s.toList).filter
      (fun r => !r.any isJsWhitespace)).map String.mk).filter
    (fun w => w.length > 2)

/-- The set `new Set(...)` over the kept tokens. -/
def wordSet (s : String) : Finset String :=
  (tokensOf s).toFinset

/-- Embedding of `textSimilarity`: Jaccard-like score over the two word sets; the
membership loop counting `wordsB.has(word)` over the set `wordsA` is the
intersection cardinality. -/
def textSimilarity (a b : String) : ℚ :=
  if (wordSet a).card = 0 ∨ (wordSet b).card = 0 then 0
  else ((wordSet a ∩ wordSet b).card : ℚ) /
    (((wordSet a).card + (wordSet b).card - (wordSet a ∩ wordSet b).card : ℕ) : ℚ)

theorem union_card_eq (A B : Finset String) :
    A.card + B.card - (A ∩ B).card = (A ∪ B).card := by
  have h := Finset.card_inter_add_card_union A B
  omega

/-- C6: `textSimilarity` is the Jaccard index of the two sets of
whitespace-separated tokens of length > 2 (0 when either set is empty),
it is symmetric, lies in `[0, 1]`, and equals 1 on equal inputs having at
least one token of length > 2. -/
theorem textSimilarity_props (a b : String) :
    (textSimilarity a b =
      if wordSet a = ∅ ∨ wordSet b = ∅ then 0
      else ((wordSet a ∩ wordSet b).card : ℚ) / (((wordSet a ∪ wordSet b).card : ℕ) : ℚ)) ∧
    textSimilarity a b = textSimilarity b a ∧
    0 ≤ textSimilarity a b ∧ textSimilarity a b ≤ 1 ∧
    (a = b → (wordSet a).Nonempty → textSimilarity a b = 1) := by
  have hcomm : wordSet a ∩ wordSet b = wordSet b ∩ wordSet a := Finset.inter_comm _ _
  refine ⟨?_, ?_, ?_, ?_, ?_⟩
  · simp only [textSimilarity, Finset.card_eq_zero, union_card_eq]
  · by_cases hA : (wordSet a).card = 0
    · simp [textSimilarity, hA]
    · by_cases hB : (wordSet b).card = 0
      · simp [textSimilarity, hB]
      · simp only [textSimilarity, hcomm]
        rw [if_neg (not_or.mpr ⟨hA, hB⟩), if_neg (not_or.mpr ⟨hB, hA⟩),
          Nat.add_comm ((wordSet b).card)]
  · simp only [textSimilarity]
    split_ifs with h
    · exact le_refl 0
    · exact div_nonneg (Nat.cast_nonneg _) (Nat.cast_nonneg _)
  · simp only [textSimilarity]
    split_ifs with h
    · exact zero_le_one
    · push_neg at h
      obtain ⟨hA, hB⟩ := h
      have h1 : (wordSet a ∩ wordSet b).card ≤ (wordSet a).card :=
        Finset.card_le_card Finset.inter_subset_left
      have h2 : (wordSet a ∩ wordSet b).card ≤ (wordSet b).card :=
        Finset.card_le_card Finset.inter_subset_right
      rw [div_le_one (by exact_mod_cast
        (show 0 < (wordSet a).card + (wordSet b).card - (wordSet a ∩ wordSet b).card by omega))]
      exact_mod_cast
        (show (wordSet a ∩ wordSet b).card ≤
          (wordSet a).card + (wordSet b).card - (wordSet a ∩ wordSet b).card by omega)
  · intro hab hne
    subst hab
    have hcard : (wordSet a).card ≠ 0 := by
      simpa [Finset.card_eq_zero] using Finset.nonempty_iff_ne_empty.mp hne
    simp only [textSimilarity, Finset.inter_self]
    rw [if_neg (by simp only [or_self]; exact hcard)]
    have hd : (wordSet a).card + (wordSet a).card - (wordSet a).card = (wordSet a).card := by
      omega
    rw [hd, div_self (by exact_mod_cast hcard)]

/-- Witness for C6 at a concrete input with a token of length > 2. -/
theorem textSimilarity_props_witness :
    textSimilarity "der Hund" "der Hund" = 1 :=
  (textSimilarity_props "der Hund" "der Hund").2.2.2.2 rfl ⟨"der", by decide⟩


/-! ### Live-DOM matcher model

The original page is modelled as a list of nodes in document order; each
node records its tag (uppercase, as JS `tagName`), its `textContent` and
its parent.  `findOriginalElementsByText` scans the candidate elements
(the `querySelectorAll` result, i.e. the nodes with candidate tags in
document order) once per block, tracking the `usedElements` set and the
list of matched elements. -/

structure MNode where
  id : Nat
  tag : String
  text : String
  parent : Option Nat
deriving DecidableEq

structure MDoc where
  nodes : List MNode
  body : Nat
deriving DecidableEq

def getNode (doc : MDoc) (i : Nat) : Option MNode :=
  doc.nodes.find? (fun n => n.id = i)

/-- JS `el.textContent` (empty for a dangling reference). -/
def textOf (doc : MDoc) (i : Nat) : String :=
  ((getNode doc i).map MNode.text).getD ""

/-- JS `el.parentElement`. -/
def parentOf (doc : MDoc) (i : Nat) : Option Nat :=
  (getNode doc i).bind MNode.parent

/-- JS `el.children` (direct children only). -/
def childrenOf (doc : MDoc) (i : Nat) : List MNode :=
  doc.nodes.filter (fun n => n.parent = some i)

/-- The `blockTags` list of `isContainerElement`. -/
def blockTags : List String :=
  ["P", "H1", "H2", "H3", "H4", "H5", "H6", "LI", "BLOCKQUOTE", "DIV",
   "ARTICLE", "SECTION"]

/-- The tags of the candidate `querySelectorAll` in
`findOriginalElementsByText`. -/
def candidateTags : List String :=
  ["P", "H1", "H2", "H3", "H4", "H5", "H6", "LI", "BLOCKQUOTE", "TD", "TH",
   "FIGCAPTION", "DIV", "SPAN"]

/-- Embedding of `isContainerElement`: some direct child has a block tag and trimmed
text longer than 30 characters. -/
def isContainerElement (doc : MDoc) (i : Nat) : Bool :=
  (childrenOf doc i).any
    (fun c => blockTags.contains c.tag && (jsTrim c.text.toList).length > 30)

/-- The candidate elements of the original page, in document order. -/
def candidatesOf (doc : MDoc) : List Nat :=
  (doc.nodes.filter (fun n => candidateTags.contains n.tag)).map MNode.id

/-- The `while (parent && parent !== document.body)` ancestor walk,
starting from a given `parentElement`; the fuel `doc.nodes.length` is
enough for any tree-shaped document. -/
def chainFrom (doc : MDoc) : Nat → Option Nat → List Nat
  | _, none => []
  | 0, some _ => []
  | fuel + 1, some p =>
    if p = doc.body then [] else p :: chainFrom doc fuel (parentOf doc p)

/-- All strict ancestors of a node up to (excluding) the document body. -/
def ancestorChain (doc : MDoc) (i : Nat) : List Nat :=
  chainFrom doc doc.nodes.length (parentOf doc i)

/-- The inner candidate scan of `findOriginalElementsByText` for one
block: `best`/`score` are the running `bestMatch`/`bestScore`; candidates
in `usedElements` and container elements are skipped, an exact normalized
match returns immediately with score 1 (the `break`), and otherwise the
highest similarity strictly above both the 0.85 threshold and the running
best is tracked.  (The source names the two repeated subterms `elText`
and `similarity`.) -/
def scanLoop (doc : MDoc) (used : List Nat) (ntarget : String) :
    List Nat → Option Nat → ℚ → Option Nat × ℚ
  | [], best, score => (best, score)
  | el :: rest, best, score =>
    if el ∈ used then scanLoop doc used ntarget rest best score
    else if isContainerElement doc el then scanLoop doc used ntarget rest best score
    else if normalizeText (textOf doc el) = ntarget then (some el, 1)
    else if 85 / 100 < textSimilarity (normalizeText (textOf doc el)) ntarget ∧
        score < textSimilarity (normalizeText (textOf doc el)) ntarget then
      scanLoop doc used ntarget rest (some el)
        (textSimilarity (normalizeText (textOf doc el)) ntarget)
    else scanLoop doc used ntarget rest best score

/-- The whole candidate scan for one block. -/
def scanBlock (doc : MDoc) (used : List Nat) (ntarget : String) : Option Nat × ℚ :=
  scanLoop doc used ntarget (candidatesOf doc) none 0

/-- One iteration of the outer block loop: on a match, the element is
recorded and it plus its ancestors up to (excluding) the body join
`usedElements`; otherwise the block is dropped. -/
def findStep (doc : MDoc) (acc : List Nat × List Nat) (targetText : String) :
    List Nat × List Nat :=
  match (scanBlock doc acc.1 (normalizeText targetText)).1 with
  | none => acc
  | some el => (acc.1 ++ el :: ancestorChain doc el, acc.2 ++ [el])

/-- Embedding of `findOriginalElementsByText`: the matched elements, in block order. -/
def findOriginalElementsByText (doc : MDoc) (textBlocks : List String) : List Nat :=
  (textBlocks.foldl (findStep doc) ([], [])).2

/-- Eligibility of a candidate for the current block: not yet used and not
a container. -/
def eligibleB (doc : MDoc) (used : List Nat) (el : Nat) : Bool :=
  !(decide (el ∈ used)) && !(isContainerElement doc el)

/-- Similarity of a candidate's normalized text to the normalized block. -/
def simTo (doc : MDoc) (ntarget : String) (el : Nat) : ℚ :=
  textSimilarity (normalizeText (textOf doc el)) ntarget

/-- The scan accepts a candidate exactly when it is eligible and its
normalized text equals the normalized block text. -/
def exactEligB (doc : MDoc) (used : List Nat) (ntarget : String) (el : Nat) : Bool :=
  eligibleB doc used el && (normalizeText (textOf doc el) == ntarget)

/-- The highest similarity strictly above the 0.85 threshold among the
eligible candidates of a list (0 if there is none). -/
def bestOf (doc : MDoc) (used : List Nat) (ntarget : String) (l : List Nat) : ℚ :=
  l.foldr (fun el m =>
    if eligibleB doc used el = true ∧ 85 / 100 < simTo doc ntarget el
    then max (simTo doc ntarget el) m else m) 0


theorem find?_cons_true {α : Type} {p : α → Bool} {a : α} {l : List α}
    (h : p a = true) : (a :: l).find? p = some a := by
  simp [List.find?_cons, h]

theorem find?_cons_false {α : Type} {p : α → Bool} {a : α} {l : List α}
    (h : p a = false) : (a :: l).find? p = l.find? p := by
  simp [List.find?_cons, h]

theorem bestOf_nil (doc : MDoc) (used : List Nat) (ntarget : String) :
    bestOf doc used ntarget [] = 0 := rfl

theorem bestOf_cons (doc : MDoc) (used : List Nat) (ntarget : String)
    (el : Nat) (l : List Nat) :
    bestOf doc used ntarget (el :: l) =
      if eligibleB doc used el = true ∧ 85 / 100 < simTo doc ntarget el
      then max (simTo doc ntarget el) (bestOf doc used ntarget l)
      else bestOf doc used ntarget l := rfl

theorem bestOf_nonneg (doc : MDoc) (used : List Nat) (ntarget : String)
    (l : List Nat) : 0 ≤ bestOf doc used ntarget l := by
  induction l with
  | nil => exact le_refl 0
  | cons el l ih =>
    rw [bestOf_cons]
    split_ifs
    · exact le_trans ih (le_max_right _ _)
    · exact ih

theorem bestOf_ge (doc : MDoc) (used : List Nat) (ntarget : String)
    {l : List Nat} {el : Nat} (hmem : el ∈ l)
    (helig : eligibleB doc used el = true)
    (hthresh : 85 / 100 < simTo doc ntarget el) :
    simTo doc ntarget el ≤ bestOf doc used ntarget l := by
  induction l with
  | nil => cases hmem
  | cons a l ih =>
    rw [bestOf_cons]
    rcases List.mem_cons.mp hmem with h | h
    · subst h
      rw [if_pos ⟨helig, hthresh⟩]
      exact le_max_left _ _
    · split_ifs
      · exact le_trans (ih h) (le_max_right _ _)
      · exact ih h

theorem bestOf_eq_zero (doc : MDoc) (used : List Nat) (ntarget : String)
    {l : List Nat}
    (h : ∀ el ∈ l, eligibleB doc used el = true →
      simTo doc ntarget el ≤ 85 / 100) :
    bestOf doc used ntarget l = 0 := by
  induction l with
  | nil => rfl
  | cons a l ih =>
    rw [bestOf_cons, if_neg]
    · exact ih (fun el hel => h el (List.mem_cons_of_mem _ hel))
    · rintro ⟨helig, hthresh⟩
      exact absurd (h a (List.mem_cons_self _ _) helig) (not_le.mpr hthresh)

/-- The scan returns the first eligible exact normalized match with
score 1, ignoring everything after it. -/
theorem scanLoop_exact (doc : MDoc) (used : List Nat) (ntarget : String) :
    ∀ (l : List Nat) (best : Option Nat) (score : ℚ) (j : Nat),
      l.find? (exactEligB doc used ntarget) = some j →
      scanLoop doc used ntarget l best score = (some j, 1) := by
  intro l
  induction l with
  | nil => intro best score j h; simp at h
  | cons el rest ih =>
    intro best score j h
    by_cases hu : el ∈ used
    · have hp : exactEligB doc used ntarget el = false := by
        simp [exactEligB, eligibleB, hu]
      rw [find?_cons_false hp] at h
      simp only [scanLoop, if_pos hu]
      exact ih best score j h
    · by_cases hc : isContainerElement doc el = true
      · have hp : exactEligB doc used ntarget el = false := by
          simp [exactEligB, eligibleB, hc]
        rw [find?_cons_false hp] at h
        simp only [scanLoop, if_neg hu, if_pos hc]
        exact ih best score j h
      · by_cases he : normalizeText (textOf doc el) = ntarget
        · have hp : exactEligB doc used ntarget el = true := by
            simp [exactEligB, eligibleB, hu, hc, he]
          rw [find?_cons_true hp] at h
          injection h with h
          subst h
          simp only [scanLoop, if_neg hu, if_neg hc, if_pos he]
        · have hp : exactEligB doc used ntarget el = false := by
            simp [exactEligB, he]
          rw [find?_cons_false hp] at h
          simp only [scanLoop, if_neg hu, if_neg hc, if_neg he]
          split_ifs with hs
          · exact ih _ _ j h
          · exact ih best score j h

/-- When no eligible exact match exists, the scan's score is the best
above-threshold eligible similarity (relative to the running best), and
the returned candidate attains it. -/
theorem scanLoop_noExact (doc : MDoc) (used : List Nat) (ntarget : String) :
    ∀ (l : List Nat) (best : Option Nat) (score : ℚ),
      l.find? (exactEligB doc used ntarget) = none →
      ((best = none ∧ score = 0) ∨
        (∃ j, best = some j ∧ eligibleB doc used j = true ∧
          simTo doc ntarget j = score ∧ 85 / 100 < score)) →
      (scanLoop doc used ntarget l best score).2
          = max score (bestOf doc used ntarget l) ∧
      ((scanLoop doc used ntarget l best score) = (none, 0) ∨
        (∃ j, (scanLoop doc used ntarget l best score).1 = some j ∧
          eligibleB doc used j = true ∧
          simTo doc ntarget j = (scanLoop doc used ntarget l best score).2 ∧
          85 / 100 < (scanLoop doc used ntarget l best score).2 ∧
          (best = some j ∨ j ∈ l))) := by
  intro l
  induction l with
  | nil =>
    intro best score hfind hinv
    have hscore : 0 ≤ score := by
      rcases hinv with ⟨_, h0⟩ | ⟨j, _, _, _, ht⟩
      · exact h0.ge
      · linarith
    refine ⟨?_, ?_⟩
    · show score = max score (bestOf doc used ntarget [])
      rw [bestOf_nil]
      exact (max_eq_left hscore).symm
    · rcases hinv with ⟨hb, h0⟩ | ⟨j, hb, helig, hsim, ht⟩
      · left
        show (best, score) = (none, 0)
        rw [hb, h0]
      · right
        exact ⟨j, hb, helig, hsim, ht, Or.inl hb⟩
  | cons el rest ih =>
    intro best score hfind hinv
    by_cases hu : el ∈ used
    · have hp : exactEligB doc used ntarget el = false := by
        simp [exactEligB, eligibleB, hu]
      rw [find?_cons_false hp] at hfind
      have helig : eligibleB doc used el = false := by simp [eligibleB, hu]
      have hb : bestOf doc used ntarget (el :: rest) = bestOf doc used ntarget rest := by
        rw [bestOf_cons, if_neg]
        rintro ⟨h1, _⟩
        rw [helig] at h1
        exact absurd h1 (by simp)
      simp only [scanLoop, if_pos hu]
      rw [hb]
      obtain ⟨ha, hr⟩ := ih best score hfind hinv
      refine ⟨ha, ?_⟩
      rcases hr with h | ⟨j, h1, h2, h3, h4, h5⟩
      · exact Or.inl h
      · exact Or.inr ⟨j, h1, h2, h3, h4, h5.imp id (List.mem_cons_of_mem el)⟩
    · by_cases hc : isContainerElement doc el = true
      · have hp : exactEligB doc used ntarget el = false := by
          simp [exactEligB, eligibleB, hc]
        rw [find?_cons_false hp] at hfind
        have helig : eligibleB doc used el = false := by simp [eligibleB, hc]
        have hb : bestOf doc used ntarget (el :: rest) = bestOf doc used ntarget rest := by
          rw [bestOf_cons, if_neg]
          rintro ⟨h1, _⟩
          rw [helig] at h1
          exact absurd h1 (by simp)
        simp only [scanLoop, if_neg hu, if_pos hc]
        rw [hb]
        obtain ⟨ha, hr⟩ := ih best score hfind hinv
        refine ⟨ha, ?_⟩
        rcases hr with h | ⟨j, h1, h2, h3, h4, h5⟩
        · exact Or.inl h
        · exact Or.inr ⟨j, h1, h2, h3, h4, h5.imp id (List.mem_cons_of_mem el)⟩
      · have helig : eligibleB doc used el = true := by simp [eligibleB, hu, hc]
        by_cases he : normalizeText (textOf doc el) = ntarget
        · exfalso
          have hp : exactEligB doc used ntarget el = true := by
            simp [exactEligB, eligibleB, hu, hc, he]
          rw [find?_cons_true hp] at hfind
          exact absurd hfind (by simp)
        · have hp : exactEligB doc used ntarget el = false := by
            simp [exactEligB, he]
          rw [find?_cons_false hp] at hfind
          simp only [scanLoop, if_neg hu, if_neg hc, if_neg he]
          split_ifs with hs
          · obtain ⟨ha, hr⟩ := ih (some el)
              (textSimilarity (normalizeText (textOf doc el)) ntarget) hfind
              (Or.inr ⟨el, rfl, helig, rfl, hs.1⟩)
            have hle : score ≤ simTo doc ntarget el := le_of_lt hs.2
            refine ⟨?_, ?_⟩
            · rw [ha, bestOf_cons, if_pos ⟨helig, hs.1⟩]
              exact (max_eq_right (le_trans hle (le_max_left _ _))).symm
            · rcases hr with h | ⟨j, h1, h2, h3, h4, h5⟩
              · exfalso
                have h2 : max (textSimilarity (normalizeText (textOf doc el)) ntarget)
                    (bestOf doc used ntarget rest) = 0 := by
                  rw [← ha, h]
                have hge := le_max_left
                  (textSimilarity (normalizeText (textOf doc el)) ntarget)
                  (bestOf doc used ntarget rest)
                rw [h2] at hge
                linarith [hs.1]
              · refine Or.inr ⟨j, h1, h2, h3, h4, Or.inr ?_⟩
                rcases h5 with h6 | h6
                · exact (Option.some.inj h6) ▸ List.mem_cons_self el rest
                · exact List.mem_cons_of_mem el h6
          · obtain ⟨ha, hr⟩ := ih best score hfind hinv
            refine ⟨?_, ?_⟩
            · rw [ha, bestOf_cons]
              by_cases ht : 85 / 100 < simTo doc ntarget el
              · rw [if_pos ⟨helig, ht⟩]
                have hsim_le : simTo doc ntarget el ≤ score := by
                  by_contra hcon
                  push_neg at hcon
                  exact hs ⟨ht, hcon⟩
                rw [← max_assoc, max_eq_left hsim_le]
              · rw [if_neg]
                rintro ⟨_, ht2⟩
                exact ht ht2
            · rcases hr with h | ⟨j, h1, h2, h3, h4, h5⟩
              · exact Or.inl h
              · exact Or.inr ⟨j, h1, h2, h3, h4, h5.imp id (List.mem_cons_of_mem el)⟩

/-- The scan never returns an element of `usedElements`. -/
theorem scanLoop_some_not_used (doc : MDoc) (used : List Nat) (ntarget : String) :
    ∀ (l : List Nat) (best : Option Nat) (score : ℚ),
      (∀ j, best = some j → j ∉ used) →
      ∀ c, (scanLoop doc used ntarget l best score).1 = some c → c ∉ used := by
  intro l
  induction l with
  | nil =>
    intro best score hbest c hc
    exact hbest c hc
  | cons el rest ih =>
    intro best score hbest c hc
    by_cases hu : el ∈ used
    · simp only [scanLoop, if_pos hu] at hc
      exact ih best score hbest c hc
    · by_cases hcont : isContainerElement doc el = true
      · simp only [scanLoop, if_neg hu, if_pos hcont] at hc
        exact ih best score hbest c hc
      · by_cases he : normalizeText (textOf doc el) = ntarget
        · simp only [scanLoop, if_neg hu, if_neg hcont, if_pos he] at hc
          have : el = c := Option.some.inj hc
          exact this ▸ hu
        · simp only [scanLoop, if_neg hu, if_neg hcont, if_neg he] at hc
          split_ifs at hc with hs
          · exact ih _ _ (fun j hj => (Option.some.inj hj) ▸ hu) c hc
          · exact ih best score hbest c hc


/-- C4: per-block candidate selection of `findOriginalElementsByText`:
the scan accepts the first non-excluded non-container candidate whose
normalized text equals the normalized block text exactly, with score 1,
without considering later candidates; if no such exact match exists it
selects a highest-scoring eligible candidate with similarity strictly
above 0.85; and if no eligible candidate is exact or above the threshold
the block yields no match and is dropped (`findStep` leaves the
accumulator unchanged). -/
theorem matcher_block_selection (doc : MDoc) (used : List Nat) (targetText : String) :
    (∀ j, (candidatesOf doc).find?
        (exactEligB doc used (normalizeText targetText)) = some j →
      scanBlock doc used (normalizeText targetText) = (some j, 1)) ∧
    ((candidatesOf doc).find?
        (exactEligB doc used (normalizeText targetText)) = none →
      (∃ el ∈ candidatesOf doc, eligibleB doc used el = true ∧
        85 / 100 < simTo doc (normalizeText targetText) el) →
      ∃ c s, scanBlock doc used (normalizeText targetText) = (some c, s) ∧
        c ∈ candidatesOf doc ∧ eligibleB doc used c = true ∧
        simTo doc (normalizeText targetText) c = s ∧ 85 / 100 < s ∧
        ∀ el ∈ candidatesOf doc, eligibleB doc used el = true →
          simTo doc (normalizeText targetText) el ≤ s) ∧
    ((∀ el ∈ candidatesOf doc, eligibleB doc used el = true →
        normalizeText (textOf doc el) ≠ normalizeText targetText ∧
        simTo doc (normalizeText targetText) el ≤ 85 / 100) →
      scanBlock doc used (normalizeText targetText) = (none, 0) ∧
      ∀ found, findStep doc (used, found) targetText = (used, found)) := by
  refine ⟨?_, ?_, ?_⟩
  · intro j h
    exact scanLoop_exact doc used (normalizeText targetText) (candidatesOf doc) none 0 j h
  · rintro hfind ⟨el, hel, helig, ht⟩
    obtain ⟨ha, hr⟩ := scanLoop_noExact doc used (normalizeText targetText)
      (candidatesOf doc) none 0 hfind (Or.inl ⟨rfl, rfl⟩)
    have hmax : (scanLoop doc used (normalizeText targetText) (candidatesOf doc) none 0).2
        = bestOf doc used (normalizeText targetText) (candidatesOf doc) := by
      rw [ha]
      exact max_eq_right (bestOf_nonneg doc used (normalizeText targetText) (candidatesOf doc))
    have hbge : 85 / 100 < bestOf doc used (normalizeText targetText) (candidatesOf doc) :=
      lt_of_lt_of_le ht (bestOf_ge doc used (normalizeText targetText) hel helig ht)
    rcases hr with h | ⟨j, h1, h2, h3, h4, h5⟩
    · exfalso
      have h0 : (scanLoop doc used (normalizeText targetText) (candidatesOf doc) none 0).2
          = 0 := by rw [h]
      rw [hmax] at h0
      linarith
    · refine ⟨j, (scanLoop doc used (normalizeText targetText)
        (candidatesOf doc) none 0).2, ?_, ?_, h2, h3, h4, ?_⟩
      · rw [← h1]
        rfl
      · rcases h5 with h6 | h6
        · exact absurd h6 (by simp)
        · exact h6
      · intro e he helig2
        by_cases ht2 : 85 / 100 < simTo doc (normalizeText targetText) e
        · rw [hmax]
          exact bestOf_ge doc used (normalizeText targetText) he helig2 ht2
        · push_neg at ht2
          rw [hmax]
          linarith
  · intro hall
    have hfind : (candidatesOf doc).find?
        (exactEligB doc used (normalizeText targetText)) = none := by
      rw [List.find?_eq_none]
      intro el hel
      by_cases helig : eligibleB doc used el = true
      · have hne := (hall el hel helig).1
        simp [exactEligB, helig, hne]
      · have hfalse : eligibleB doc used el = false := by
          revert helig
          cases eligibleB doc used el <;> simp
        simp [exactEligB, hfalse]
    obtain ⟨ha, hr⟩ := scanLoop_noExact doc used (normalizeText targetText)
      (candidatesOf doc) none 0 hfind (Or.inl ⟨rfl, rfl⟩)
    have hzero : bestOf doc used (normalizeText targetText) (candidatesOf doc) = 0 :=
      bestOf_eq_zero doc used (normalizeText targetText)
        (fun el hel helig => (hall el hel helig).2)
    have h2 : (scanLoop doc used (normalizeText targetText)
        (candidatesOf doc) none 0).2 = 0 := by
      rw [ha, hzero]
      exact max_self 0
    have hnone : scanBlock doc used (normalizeText targetText) = (none, 0) := by
      rcases hr with h | ⟨j, _, _, _, h4, _⟩
      · exact h
      · exfalso
        rw [h2] at h4
        linarith
    refine ⟨hnone, fun found => ?_⟩
    simp [findStep, hnone]

/-- Witness for C4: a one-candidate page where the block matches exactly. -/
theorem matcher_block_selection_witness :
    scanBlock (MDoc.mk [MNode.mk 1 "P" "Hello world" (some 0)] 0) []
      (normalizeText "Hello world") = (some 1, 1) :=
  (matcher_block_selection (MDoc.mk [MNode.mk 1 "P" "Hello world" (some 0)] 0)
    [] "Hello world").1 1 (by decide)

/-- Invariant carried by the outer matching loop: every found element and
all of its chain ancestors are in `usedElements`, and the found list is
pairwise distinct with no later element an ancestor of an earlier one. -/
def matchInv (doc : MDoc) (acc : List Nat × List Nat) : Prop :=
  (∀ f ∈ acc.2, f ∈ acc.1 ∧ ∀ a ∈ ancestorChain doc f, a ∈ acc.1) ∧
  List.Pairwise (fun e later => e ≠ later ∧ later ∉ ancestorChain doc e) acc.2

theorem findStep_inv (doc : MDoc) (acc : List Nat × List Nat) (t : String)
    (h : matchInv doc acc) : matchInv doc (findStep doc acc t) := by
  obtain ⟨hmem, hpw⟩ := h
  unfold findStep
  rcases hs : (scanBlock doc acc.1 (normalizeText t)).1 with _ | el
  · exact ⟨hmem, hpw⟩
  · have hel : el ∉ acc.1 :=
      scanLoop_some_not_used doc acc.1 (normalizeText t) (candidatesOf doc) none 0
        (fun j hj => absurd hj (by simp)) el hs
    refine ⟨?_, ?_⟩
    · intro f hf
      rcases List.mem_append.mp hf with hf | hf
      · obtain ⟨h1, h2⟩ := hmem f hf
        exact ⟨List.mem_append_left _ h1, fun a ha => List.mem_append_left _ (h2 a ha)⟩
      · have hfe : f = el := by simpa using hf
        subst hfe
        exact ⟨List.mem_append_right _ (List.mem_cons_self _ _), fun a ha =>
          List.mem_append_right _ (List.mem_cons_of_mem _ ha)⟩
    · rw [List.pairwise_append]
      refine ⟨hpw, List.pairwise_singleton _ _, ?_⟩
      intro a ha b hb
      have hbe : b = el := by simpa using hb
      subst hbe
      obtain ⟨h1, h2⟩ := hmem a ha
      exact ⟨fun hcon => hel (hcon ▸ h1), fun hcon => hel (h2 _ hcon)⟩

theorem foldl_findStep_inv (doc : MDoc) :
    ∀ (blocks : List String) (acc : List Nat × List Nat),
      matchInv doc acc → matchInv doc (blocks.foldl (findStep doc) acc) := by
  intro blocks
  induction blocks with
  | nil => intro acc h; exact h
  | cons t ts ih =>
    intro acc h
    exact ih _ (findStep_inv doc acc t h)

/-- C1: the matcher never matches the same live element to two blocks,
and never matches an element that is an ancestor (up to, and excluding,
the document body) of an element matched to an earlier block — once an
element is matched, it and its ancestors are excluded from candidacy. -/
theorem matcher_no_duplicate_no_ancestor (doc : MDoc) (textBlocks : List String) :
    (findOriginalElementsByText doc textBlocks).Nodup ∧
    List.Pairwise (fun e later => later ∉ ancestorChain doc e)
      (findOriginalElementsByText doc textBlocks) := by
  have h := foldl_findStep_inv doc textBlocks ([], [])
    ⟨fun f hf => absurd hf (List.not_mem_nil f), List.Pairwise.nil⟩
  obtain ⟨-, hpw⟩ := h
  exact ⟨List.Pairwise.imp (fun h => h.1) hpw, List.Pairwise.imp (fun h => h.2) hpw⟩


/-! ### Reversible rewriter, session and interaction state

A live element is modelled by its `textContent`, its class list, the two
`dataset` entries the extension uses, and whether the sentence-mode click
handler is attached.  The page plus the content script's module-level
mutable state is a `PageState`; a `TranslationState` records the session
positionally (its element references are the first `count` elements of
the page list — the matcher guarantees the matched elements are
distinct). -/

structure Elem where
  text : String
  classes : List String
  dataOriginal : Option String
  dataContext : Option String
  sentenceClick : Bool
deriving DecidableEq

/-- One translated block `\x7b original, translated \x7d`; an absent
`translated` is the empty string, as in the JS falsiness checks. -/
structure TransBlock where
  original : String
  translated : String
deriving DecidableEq

/-- JS `block.translated || block.original`. -/
def effText (b : TransBlock) : String :=
  if b.translated = "" then b.original else b.translated

/-- JS `classList.add` (no duplicates). -/
def addClass (cs : List String) (c : String) : List String :=
  if c ∈ cs then cs else cs ++ [c]

/-- JS `classList.remove`. -/
def removeClass (cs : List String) (c : String) : List String :=
  cs.filter (fun x => x ≠ c)

structure TranslationState where
  count : Nat
  originals : List String
deriving DecidableEq

structure PageState where
  elements : List Elem
  translationState : Option TranslationState
  activeTooltip : Bool
  activeFloatingBar : Bool
  currentClickedWord : Option Nat
  hoveredSentence : Option Nat
  isModifierHeld : Bool
  browserTranslator : Bool
  browserTranslatorInitialized : Bool
  translatorLanguages : Option (String × String)
deriving DecidableEq

/-- A pristine page before any translation. -/
def initState (E : List Elem) : PageState :=
  ⟨E, none, false, false, none, none, false, false, false, none⟩

/-- The per-element body of the `applyTranslations` loop: capture the
current text into `dataset.vakyaOriginal`, store the block's source text
into `dataset.vakyaContext`, add the `vakya-translated` class, render the
tokenized translation (the element's new `textContent` is the
concatenation of the appended fragments) and attach the sentence click
handler. -/
def applyOne (el : Elem) (b : TransBlock) : Elem :=
  { text := fragsText (renderTranslatedBlock (effText b)),
    classes := addClass el.classes "vakya-translated",
    dataOriginal := some el.text,
    dataContext := some b.original,
    sentenceClick := true }

/-- Embedding of `applyTranslations`: pairs elements and blocks positionally up to
`min` of the lengths, mutates those elements and records the session. -/
def applyTranslations (s : PageState) (blocks : List TransBlock) : PageState :=
  { s with
    elements := ((s.elements.take (min s.elements.length blocks.length)).zipWith
        applyOne (blocks.take (min s.elements.length blocks.length))) ++
      s.elements.drop (min s.elements.length blocks.length),
    translationState := some ⟨min s.elements.length blocks.length,
      (s.elements.take (min s.elements.length blocks.length)).map Elem.text⟩ }

/-- The per-element body of the `restoreOriginal` loop: detach the
sentence handler, restore the captured text (`originals[i] || ''` is the
captured string itself), remove the `vakya-translated` class and delete
both dataset entries. -/
def restoreOne (el : Elem) (orig : String) : Elem :=
  { el with
    sentenceClick := false,
    text := orig,
    classes := removeClass el.classes "vakya-translated",
    dataOriginal := none,
    dataContext := none }

/-- Embedding of `restoreOriginal`: no-op without an active session; otherwise restore
every session element, clear the session and translator state, hide the
tooltip (`hideTooltip` also clears the clicked-word pointer) and replace
the floating bar with the "Original restored" bar.  Note: the source does
not call `clearSentenceHover` here, so `hoveredSentence` (and any
`vakya-sentence-hover` class) is left as-is. -/
def restoreOriginal (s : PageState) : PageState :=
  match s.translationState with
  | none => s
  | some ts =>
    { s with
      elements := ((s.elements.take ts.count).zipWith restoreOne ts.originals) ++
        s.elements.drop ts.count,
      translationState := none,
      browserTranslator := false,
      browserTranslatorInitialized := false,
      translatorLanguages := none,
      activeTooltip := false,
      currentClickedWord := none,
      activeFloatingBar := true }

/-- Embedding of `showFloatingBar` (any message): the old bar is removed and a new one
shown. -/
def showFloatingBar (s : PageState) : PageState :=
  { s with activeFloatingBar := true }

/-- The re-entrancy guard at the top of `translatePage`; the rest of the
pipeline (extraction, matching, the external translation call and the
application of its result) is abstracted as `pipeline`, which the guard
must prevent from running. -/
def translatePage (pipeline : PageState → PageState) (s : PageState) : PageState :=
  if s.translationState.isSome then showFloatingBar s else pipeline s

/-- The observable state of a session element after apply-then-restore. -/
def cleanElem (e : Elem) : Elem :=
  { text := e.text,
    classes := removeClass e.classes "vakya-translated",
    dataOriginal := none,
    dataContext := none,
    sentenceClick := false }

theorem removeClass_addClass (cs : List String) (c : String) :
    removeClass (addClass cs c) c = removeClass cs c := by
  unfold addClass removeClass
  split_ifs with h
  · rfl
  · rw [List.filter_append]
    simp

theorem not_mem_removeClass (cs : List String) (c : String) :
    c ∉ removeClass cs c := by
  unfold removeClass
  intro h
  have hmem := List.mem_filter.mp h
  simp at hmem

theorem restoreOne_applyOne (a : Elem) (b : TransBlock) :
    restoreOne (applyOne a b) a.text = cleanElem a := by
  unfold restoreOne applyOne cleanElem
  simp [removeClass_addClass]

theorem restore_apply_zip (A : List Elem) (Bt : List TransBlock)
    (h : A.length = Bt.length) :
    (A.zipWith applyOne Bt).zipWith restoreOne (A.map Elem.text) = A.map cleanElem := by
  induction A generalizing Bt with
  | nil => simp
  | cons a A ih =>
    cases Bt with
    | nil => simp at h
    | cons b Bt =>
      simp only [List.zipWith_cons_cons, List.map_cons]
      rw [restoreOne_applyOne, ih Bt (by simpa using h)]

theorem restoreOriginal_elements (s : PageState) (ts : TranslationState)
    (h : s.translationState = some ts) :
    (restoreOriginal s).elements =
      ((s.elements.take ts.count).zipWith restoreOne ts.originals) ++
        s.elements.drop ts.count := by
  unfold restoreOriginal
  rw [h]

theorem restore_after_apply (E : List Elem) (B : List TransBlock) :
    (restoreOriginal (applyTranslations (initState E) B)).elements =
      (E.take (min E.length B.length)).map cleanElem ++
        E.drop (min E.length B.length) := by
  have h2 : (applyTranslations (initState E) B).translationState =
      some ⟨min E.length B.length, (E.take (min E.length B.length)).map Elem.text⟩ := rfl
  rw [restoreOriginal_elements _ _ h2]
  have h1 : (applyTranslations (initState E) B).elements =
      ((E.take (min E.length B.length)).zipWith applyOne
        (B.take (min E.length B.length))) ++ E.drop (min E.length B.length) := rfl
  rw [h1]
  have hlzip : ((E.take (min E.length B.length)).zipWith applyOne
      (B.take (min E.length B.length))).length = min E.length B.length := by
    rw [List.length_zipWith, List.length_take, List.length_take]
    omega
  rw [List.take_left' hlzip, List.drop_left' hlzip]
  congr 1
  exact restore_apply_zip _ _ (by rw [List.length_take, List.length_take]; omega)

/-- C2: restoring the session produced by `applyTranslations` returns
every element's text content to its pre-apply value; the session elements
(the first `min` of the lengths) end with the `vakya-translated` class
and both dataset entries removed and the sentence handler detached;
elements beyond the first `min` are never mutated at all. -/
theorem restore_applyTranslations_roundtrip (E : List Elem) (B : List TransBlock)
    (_hB : B ≠ []) :
    List.Forall₂ (fun a e => a.text = e.text)
      (restoreOriginal (applyTranslations (initState E) B)).elements E ∧
    (∀ a ∈ (restoreOriginal (applyTranslations (initState E) B)).elements.take
        (min E.length B.length),
      "vakya-translated" ∉ a.classes ∧ a.dataOriginal = none ∧
      a.dataContext = none ∧ a.sentenceClick = false) ∧
    (restoreOriginal (applyTranslations (initState E) B)).elements.drop
        (min E.length B.length) = E.drop (min E.length B.length) ∧
    (applyTranslations (initState E) B).elements.drop (min E.length B.length)
        = E.drop (min E.length B.length) := by
  have hmap : ((E.take (min E.length B.length)).map cleanElem).length
      = min E.length B.length := by
    rw [List.length_map, List.length_take]
    omega
  refine ⟨?_, ?_, ?_, ?_⟩
  · rw [restore_after_apply]
    conv_rhs => rw [← List.take_append_drop (min E.length B.length) E]
    refine List.rel_append ?_ ?_
    · rw [List.forall₂_map_left_iff]
      exact List.forall₂_same.mpr (fun a _ => rfl)
    · exact List.forall₂_same.mpr (fun a _ => rfl)
  · rw [restore_after_apply, List.take_left' hmap]
    intro a ha
    obtain ⟨e, _, he⟩ := List.mem_map.mp ha
    rw [← he]
    exact ⟨not_mem_removeClass e.classes _, rfl, rfl, rfl⟩
  · rw [restore_after_apply, List.drop_left' hmap]
  · have h1 : (applyTranslations (initState E) B).elements =
        ((E.take (min E.length B.length)).zipWith applyOne
          (B.take (min E.length B.length))) ++ E.drop (min E.length B.length) := rfl
    have hlzip : ((E.take (min E.length B.length)).zipWith applyOne
        (B.take (min E.length B.length))).length = min E.length B.length := by
      rw [List.length_zipWith, List.length_take, List.length_take]
      omega
    rw [h1, List.drop_left' hlzip]

/-- Witness for C2 at a concrete element and block. -/
theorem restore_applyTranslations_roundtrip_witness :
    List.Forall₂ (fun a e => a.text = e.text)
      (restoreOriginal (applyTranslations
        (initState [Elem.mk "alt" [] none none false]) [TransBlock.mk "alt" "neu"])).elements
      [Elem.mk "alt" [] none none false] ∧
    (∀ a ∈ (restoreOriginal (applyTranslations
        (initState [Elem.mk "alt" [] none none false]) [TransBlock.mk "alt" "neu"])).elements.take
        (min [Elem.mk "alt" [] none none false].length [TransBlock.mk "alt" "neu"].length),
      "vakya-translated" ∉ a.classes ∧ a.dataOriginal = none ∧
      a.dataContext = none ∧ a.sentenceClick = false) ∧
    (restoreOriginal (applyTranslations
        (initState [Elem.mk "alt" [] none none false]) [TransBlock.mk "alt" "neu"])).elements.drop
        (min [Elem.mk "alt" [] none none false].length [TransBlock.mk "alt" "neu"].length)
      = [Elem.mk "alt" [] none none false].drop
        (min [Elem.mk "alt" [] none none false].length [TransBlock.mk "alt" "neu"].length) ∧
    (applyTranslations (initState [Elem.mk "alt" [] none none false])
        [TransBlock.mk "alt" "neu"]).elements.drop
        (min [Elem.mk "alt" [] none none false].length [TransBlock.mk "alt" "neu"].length)
      = [Elem.mk "alt" [] none none false].drop
        (min [Elem.mk "alt" [] none none false].length [TransBlock.mk "alt" "neu"].length) :=
  restore_applyTranslations_roundtrip [Elem.mk "alt" [] none none false]
    [TransBlock.mk "alt" "neu"] (by decide)

/-- C8: invoking `translatePage` while a session is active only shows the
"Page already translated" floating bar: for every continuation pipeline,
the page elements, the session and the translator state are unchanged
(and the pipeline never runs), so at most one session exists. -/
theorem translatePage_reentrancy (s : PageState) (pipeline : PageState → PageState)
    (h : s.translationState.isSome = true) :
    translatePage pipeline s = showFloatingBar s ∧
    (translatePage pipeline s).elements = s.elements ∧
    (translatePage pipeline s).translationState = s.translationState ∧
    (translatePage pipeline s).browserTranslator = s.browserTranslator ∧
    (translatePage pipeline s).browserTranslatorInitialized
        = s.browserTranslatorInitialized ∧
    (translatePage pipeline s).translatorLanguages = s.translatorLanguages ∧
    (translatePage pipeline s).activeFloatingBar = true := by
  have h1 : translatePage pipeline s = showFloatingBar s := by
    unfold translatePage
    rw [if_pos h]
  refine ⟨h1, ?_, ?_, ?_, ?_, ?_, ?_⟩ <;> rw [h1] <;> rfl

/-- Witness for C8: a state with an active (empty) session. -/
theorem translatePage_reentrancy_witness :
    translatePage id (PageState.mk [] (some (TranslationState.mk 0 [])) false false
        none none false false false none)
      = showFloatingBar (PageState.mk [] (some (TranslationState.mk 0 [])) false false
        none none false false false none) :=
  (translatePage_reentrancy (PageState.mk [] (some (TranslationState.mk 0 [])) false false
    none none false false false none) id (by decide)).1

/-- A concrete state with an active session, an open tooltip and a
sentence-hover highlight on the single translated element. -/
def hoverState : PageState :=
  ⟨[⟨"Hallo Welt", ["vakya-translated", "vakya-sentence-hover"],
      some "orig", some "ctx", true⟩],
   some ⟨1, ["orig"]⟩, true, false, none, some 0, true, false, false, none⟩

/-- Counterexample to C9 as stated: `restoreOriginal` on an active session
closes the tooltip but does not clear the sentence-hover highlight — the
`hoveredSentence` pointer survives and the restored element keeps its
`vakya-sentence-hover` class. -/
theorem restore_hover_counterexample :
    hoverState.translationState.isSome = true ∧
    hoverState.hoveredSentence = some 0 ∧
    (restoreOriginal hoverState).hoveredSentence = some 0 ∧
    (restoreOriginal hoverState).elements
      = [Elem.mk "orig" ["vakya-sentence-hover"] none none false] := by
  decide

/-- C9 (amended): after `restoreOriginal` runs on an active session, any
open popup/tooltip is closed (with the clicked-word pointer) and the
session is cleared, regardless of the interaction state — but the
transient sentence-hover state is left unchanged rather than cleared. -/
theorem restore_closes_popup (s : PageState) (ts : TranslationState)
    (h : s.translationState = some ts) :
    (restoreOriginal s).activeTooltip = false ∧
    (restoreOriginal s).currentClickedWord = none ∧
    (restoreOriginal s).translationState = none ∧
    (restoreOriginal s).hoveredSentence = s.hoveredSentence := by
  unfold restoreOriginal
  rw [h]
  exact ⟨rfl, rfl, rfl, rfl⟩

/-- Witness for the amended C9. -/
theorem restore_closes_popup_witness :
    (restoreOriginal hoverState).activeTooltip = false ∧
    (restoreOriginal hoverState).currentClickedWord = none ∧
    (restoreOriginal hoverState).translationState = none ∧
    (restoreOriginal hoverState).hoveredSentence = hoverState.hoveredSentence :=
  restore_closes_popup hoverState ⟨1, ["orig"]⟩ rfl


/-! ### Background batch translation pipeline

`handleTranslationRequest` splits the blocks into batches of at most two,
dispatches `translateBatch` for each and aggregates.  The outcome of each
batch's external `fetch`-and-parse is threaded as an oracle argument
(`none` models the call throwing — HTTP error, timeout abort, empty or
malformed content); `translateBatch` catches any such error and degrades
the batch to its input blocks. -/

/-- Strip a leading `#` digits `:` whitespace-run from a translated
string (the `replace` cleanup in `translateBatch`, after `|| ''`). -/
def stripNumTag (s : String) : String :=
  match s.toList with
  | '#' :: rest =>
    if rest.takeWhile Char.isDigit ≠ [] then
      match rest.dropWhile Char.isDigit with
      | ':' :: rest2 => String.mk (rest2.dropWhile isJsWhitespace)
      | _ => s
    else s
  | _ => s

/-- Cleaning of one parsed API block: keep `original`, strip the numeric
tag from `translated`. -/
def cleanBlock (b : TransBlock) : TransBlock :=
  ⟨b.original, stripNumTag b.translated⟩

structure BatchResult where
  blocks : List TransBlock
  failed : Bool
deriving DecidableEq

/-- Embedding of `translateBatch`: a successful call yields the parsed blocks,
cleaned; any thrown error is caught and the batch falls back to its input
blocks with `translated = original`, marked failed. -/
def translateBatch (blocks : List String) (outcome : Option (List TransBlock)) :
    BatchResult :=
  match outcome with
  | some parsed => ⟨parsed.map cleanBlock, false⟩
  | none => ⟨blocks.map (fun b => ⟨b, b⟩), true⟩

/-- The `slice(i, i + 2)` batching loop. -/
def chunk2 : List String → List (List String)
  | [] => []
  | [a] => [[a]]
  | a :: b :: rest => [a, b] :: chunk2 rest

structure TranslationResult where
  blocks : List TransBlock
  failedBatches : Nat
  totalBatches : Nat
deriving DecidableEq

/-- The per-batch results of the `Promise.all`, in batch order. -/
def batchResults (blocks : List String)
    (outcome : Nat → Option (List TransBlock)) : List BatchResult :=
  (chunk2 blocks).enum.map (fun p => translateBatch p.2 (outcome p.1))

/-- Embedding of `handleTranslationRequest` (after the stored settings and key are
read): throws on a missing key, otherwise runs every batch, counts the
failed ones and flattens the per-batch blocks back into block order. -/
def handleTranslationRequest (apiKey : String) (blocks : List String)
    (outcome : Nat → Option (List TransBlock)) : Except String TranslationResult :=
  if apiKey = "" then
    .error "Missing OpenAI API key. Set it in the options page."
  else
    .ok ⟨((batchResults blocks outcome).map BatchResult.blocks).flatten,
      ((batchResults blocks outcome).filter BatchResult.failed).length,
      (chunk2 blocks).length⟩

theorem translateBatch_failed (batch : List String)
    (o : Option (List TransBlock)) :
    (translateBatch batch o).failed = o.isNone := by
  cases o <;> rfl

/-- C5: with a configured key the batch pipeline never propagates an
exception, whatever each batch's external call does; `totalBatches` is
the number of dispatched batches, `failedBatches` counts exactly the
batches whose call threw, and every failed batch contributes its input
blocks unchanged (`translated = original`, in original order) to the
flattened output. -/
theorem handleTranslationRequest_partial_failure (apiKey : String)
    (blocks : List String) (outcome : Nat → Option (List TransBlock))
    (hk : apiKey ≠ "") :
    ∃ r, handleTranslationRequest apiKey blocks outcome = .ok r ∧
      r.totalBatches = (chunk2 blocks).length ∧
      r.failedBatches =
        ((chunk2 blocks).enum.filter (fun p => (outcome p.1).isNone)).length ∧
      r.blocks = ((chunk2 blocks).enum.map (fun p =>
        match outcome p.1 with
        | none => p.2.map (fun b => TransBlock.mk b b)
        | some parsed => parsed.map cleanBlock)).flatten := by
  have hok : handleTranslationRequest apiKey blocks outcome =
      .ok ⟨((batchResults blocks outcome).map BatchResult.blocks).flatten,
        ((batchResults blocks outcome).filter BatchResult.failed).length,
        (chunk2 blocks).length⟩ := by
    unfold handleTranslationRequest
    rw [if_neg hk]
  refine ⟨_, hok, rfl, ?_, ?_⟩
  · show (((chunk2 blocks).enum.map
        (fun p => translateBatch p.2 (outcome p.1))).filter BatchResult.failed).length
      = ((chunk2 blocks).enum.filter (fun p => (outcome p.1).isNone)).length
    rw [List.filter_map, List.length_map]
    congr 1
    apply List.filter_congr
    intro p _
    simp only [Function.comp_apply, translateBatch_failed]
  · show (((chunk2 blocks).enum.map
        (fun p => translateBatch p.2 (outcome p.1))).map BatchResult.blocks).flatten = _
    rw [List.map_map]
    congr 1
    apply List.map_congr_left
    intro p _
    show (translateBatch p.2 (outcome p.1)).blocks = _
    cases houtcome : outcome p.1 <;> simp [translateBatch]

/-- Witness for C5: three blocks make two batches; batch 1 succeeds,
batch 2 throws. -/
theorem handleTranslationRequest_partial_failure_witness :
    ∃ r, handleTranslationRequest "sk-key" ["aaa", "bbb", "ccc"]
        (fun i => if i = 0 then some [TransBlock.mk "aaa" "xxx",
          TransBlock.mk "bbb" "yyy"] else none) = .ok r ∧
      r.totalBatches = (chunk2 ["aaa", "bbb", "ccc"]).length ∧
      r.failedBatches = ((chunk2 ["aaa", "bbb", "ccc"]).enum.filter
        (fun p => ((fun i => if i = 0 then some [TransBlock.mk "aaa" "xxx",
          TransBlock.mk "bbb" "yyy"] else none) p.1).isNone)).length ∧
      r.blocks = ((chunk2 ["aaa", "bbb", "ccc"]).enum.map (fun p =>
        match (fun i => if i = 0 then some [TransBlock.mk "aaa" "xxx",
          TransBlock.mk "bbb" "yyy"] else none) p.1 with
        | none => p.2.map (fun b => TransBlock.mk b b)
        | some parsed => parsed.map cleanBlock)).flatten :=
  handleTranslationRequest_partial_failure "sk-key" ["aaa", "bbb", "ccc"]
    (fun i => if i = 0 then some [TransBlock.mk "aaa" "xxx",
      TransBlock.mk "bbb" "yyy"] else none) (by decide)


end Vakya
